import Mathlib

/-!
A verification development for the content-store repository: a shallow
embedding of its Entry model (src/entries.ts), its FileHasher
(hashOf / hashDir / hashEntries), and its ContentStore (enterFile,
enterDirectory, enterVirtualDirectory, realize, the in-flight
ingestion table), together with theorems about directory hashing,
single-flight ingestion, temporary-file handling and realization.

The digest primitive (crypto.createHash(algorithm) with update and
digest) is an external collaborator: it is modelled as an abstract
function parameter.  Filesystem paths handled by the ContentStore are
modelled as lists of path components; path.join appends components and
path.dirname drops the last component.
-/

namespace ContentStoreModel

/-- The Entry union of src/entries.ts: a FileEntry carries a name and a
hash, a DirectoryEntry carries a name, a hash and the ordered list of
its immediate children.  In the first (historical) version of
entries.ts the name field of a FileEntry is spelled file and the name
field of a DirectoryEntry is spelled directory; in the second version
both are spelled name.  The constructor argument n holds that name in
either spelling. -/
inductive Entry where
  | file (n : String) (hash : String)
  | directory (n : String) (hash : String) (files : List Entry)

/-- The name of an entry (the file / directory / name field). -/
def Entry.name : Entry → String
  | .file n _ => n
  | .directory n _ _ => n

/-- The hash of an entry. -/
def Entry.entryHash : Entry → String
  | .file _ h => h
  | .directory _ h _ => h

/-- isDirectory of the first version of entries.ts, the one in scope
where FileHasher.hashEntries reads the field data.directory: it tests
the truthiness of the directory field, so a FileEntry (whose directory
field is undefined) is never a directory, and a DirectoryEntry counts
as a directory exactly when its name is a nonempty string (the empty
string is falsy in JavaScript). -/
def isDirectoryByNameField : Entry → Bool
  | .file _ _ => false
  | .directory n _ _ => n ≠ ""

/-- isDirectory of the second version of entries.ts, the one the
current ContentStore compiles against: it tests the truthiness of the
files field, and an array value (even an empty one) is truthy, so a
DirectoryEntry always counts as a directory. -/
def isDirectoryEntry : Entry → Bool
  | .file _ _ => false
  | .directory _ _ _ => true

/-- A JSON value: a string, an object with ordered fields, or an array. -/
inductive JVal where
  | jstr (s : String)
  | jobj (fields : List (String × JVal))
  | jarr (elems : List JVal)

/-- One hexadecimal digit, lowercase. -/
def hexDigit (n : Nat) : Char :=
  if n < 10 then Char.ofNat (48 + n) else Char.ofNat (87 + (n % 16))

/-- Four hexadecimal digits, as emitted in a JSON unicode escape. -/
def hex4 (n : Nat) : String :=
  String.mk [hexDigit (n / 4096 % 16), hexDigit (n / 256 % 16),
             hexDigit (n / 16 % 16), hexDigit (n % 16)]

/-- The escaping JSON.stringify applies to one character of a string. -/
def jsonEscapeChar (c : Char) : String :=
  if c = '"' then "\\\""
  else if c = '\\' then "\\\\"
  else if c = '\n' then "\\n"
  else if c = '\r' then "\\r"
  else if c = '\t' then "\\t"
  else if c = '\x08' then "\\b"
  else if c = '\x0c' then "\\f"
  else if c.toNat < 32 then "\\u" ++ hex4 c.toNat
  else String.singleton c

/-- A JSON string literal: quotes around the escaped characters. -/
def jstring (s : String) : String :=
  "\"" ++ String.join (s.data.map jsonEscapeChar) ++ "\""

mutual

/-- JSON.stringify on a JSON value. -/
def stringify : JVal → String
  | .jstr s => jstring s
  | .jobj fields => "\x7b" ++ stringifyFields fields ++ "\x7d"
  | .jarr elems => "[" ++ stringifyElems elems ++ "]"

/-- JSON.stringify on the comma-separated fields of an object. -/
def stringifyFields : List (String × JVal) → String
  | [] => ""
  | [(k, v)] => jstring k ++ ":" ++ stringify v
  | (k, v) :: rest => jstring k ++ ":" ++ stringify v ++ "," ++ stringifyFields rest

/-- JSON.stringify on the comma-separated elements of an array. -/
def stringifyElems : List JVal → String
  | [] => ""
  | [v] => stringify v
  | v :: rest => stringify v ++ "," ++ stringifyElems rest

end

mutual

/-- The JSON value of an Entry as JSON.stringify sees it, with the
field names of the first version of entries.ts: a FileEntry is
(file, hash) and a DirectoryEntry is (directory, hash, files), in
that insertion order. -/
def entryJson : Entry → JVal
  | .file n h => .jobj [("file", .jstr n), ("hash", .jstr h)]
  | .directory n h fs =>
      .jobj [("directory", .jstr n), ("hash", .jstr h), ("files", .jarr (entriesJson fs))]

/-- The JSON values of a list of entries, in order. -/
def entriesJson : List Entry → List JVal
  | [] => []
  | e :: es => entryJson e :: entriesJson es

end

/-- The per-entry map inside FileHasher.hashEntries: if isDirectory
holds of the entry it is replaced by an object holding only the
(misspelled) dirctory field with the name and the hash field — the
files are dropped — and otherwise the entry data passes through
unchanged. -/
def hashedEntryJson (data : Entry) : JVal :=
  if isDirectoryByNameField data then
    match data with
    | .file n h => entryJson (.file n h)
    | .directory n h _ => .jobj [("dirctory", .jstr n), ("hash", .jstr h)]
  else entryJson data

/-- The JSON array FileHasher.hashEntries serializes: the entries list
with each entry passed through the reduction map. -/
def hashEntriesJson (entries : List Entry) : JVal :=
  .jarr (entries.map hashedEntryJson)

/-- FileHasher.hashEntries: digest the JSON.stringify serialization of
the reduced entries list.  The digest parameter stands for
crypto.createHash(algorithm) followed by update and digest(hex). -/
def hashEntries (digest : String → String) (entries : List Entry) : String :=
  digest (stringify (hashEntriesJson entries))

/-- Modelled from the words of the specification, for comparison with
hashEntries: the reduction the spec describes, in which every
directory entry (regardless of its name) is reduced to exactly its
name and its hash and every file entry passes through unchanged. -/
def specReducedEntryJson : Entry → JVal
  | .file n h => entryJson (.file n h)
  | .directory n h _ => .jobj [("dirctory", .jstr n), ("hash", .jstr h)]

/-- The serialization of the spec-side reduced list. -/
def specHashEntriesJson (entries : List Entry) : JVal :=
  .jarr (entries.map specReducedEntryJson)

/-- The top-level shape of an entry: its kind, its name and its hash —
everything the spec says the entries hash may depend on. -/
def entryShape : Entry → Bool × String × String
  | .file n h => (false, n, h)
  | .directory n h _ => (true, n, h)

/-- An entry whose directory name is nonempty (always true of files). -/
def dirNameNonempty : Entry → Prop
  | .file _ _ => True
  | .directory n _ _ => n ≠ ""

instance (e : Entry) : Decidable (dirNameNonempty e) := by
  cases e with
  | file n h => exact isTrue trivial
  | directory n h fs => exact (inferInstance : Decidable (n ≠ ""))

mutual

/-- A node of the source filesystem: a file with its byte content, or a
directory with its children. -/
inductive FsTree where
  | file : List Nat → FsTree
  | dir : List DirChild → FsTree

/-- A named child of a directory together with the outcome stat has for
it: present with a node, ENOENT (dangling), or another stat error. -/
inductive DirChild where
  | present : String → FsTree → DirChild
  | dangling : String → DirChild
  | statFail : String → String → DirChild

end

/-- The name under which a child appears in readdir. -/
def childName : DirChild → String
  | .present n _ => n
  | .dangling n => n
  | .statFail n _ => n

/-- The names readdir returns for a directory, in filesystem order. -/
def childrenNames (children : List DirChild) : List String :=
  children.map childName

/-- The comparison of the default JavaScript Array.sort on strings:
lexicographic on the numeric values of the code units. -/
def jsLeChars : List Char → List Char → Bool
  | [], _ => true
  | _ :: _, [] => false
  | a :: as, b :: bs =>
      if a.toNat < b.toNat then true
      else if b.toNat < a.toNat then false
      else jsLeChars as bs

/-- The string order used to sort readdir names. -/
def nameLe (a b : String) : Prop := jsLeChars a.data b.data = true

instance : DecidableRel nameLe := fun a b =>
  inferInstanceAs (Decidable (jsLeChars a.data b.data = true))

def jsLeChars_total : ∀ as bs, jsLeChars as bs = true ∨ jsLeChars bs as = true
  | [], _ => Or.inl rfl
  | _ :: _, [] => Or.inr rfl
  | a :: as, b :: bs => by
      rcases Nat.lt_trichotomy a.toNat b.toNat with h | h | h
      · left; simp [jsLeChars, h]
      · have h2 : ¬ a.toNat < b.toNat := by omega
        have h3 : ¬ b.toNat < a.toNat := by omega
        rcases jsLeChars_total as bs with ih | ih
        · left; simp [jsLeChars, h2, h3, ih]
        · right; simp [jsLeChars, h2, h3, ih]
      · right; simp [jsLeChars, h]

def jsLeChars_trans : ∀ as bs cs, jsLeChars as bs = true →
    jsLeChars bs cs = true → jsLeChars as cs = true
  | [], _, _, _, _ => rfl
  | _ :: _, [], _, h1, _ => by simp [jsLeChars] at h1
  | _ :: _, _ :: _, [], _, h2 => by simp [jsLeChars] at h2
  | a :: as, b :: bs, c :: cs, h1, h2 => by
      simp only [jsLeChars] at h1 h2 ⊢
      rcases Nat.lt_trichotomy a.toNat b.toNat with hab | hab | hab
      · rcases Nat.lt_trichotomy b.toNat c.toNat with hbc | hbc | hbc
        · rw [if_pos (show a.toNat < c.toNat by omega)]
        · rw [if_pos (show a.toNat < c.toNat by omega)]
        · rw [if_neg (show ¬ b.toNat < c.toNat by omega),
              if_pos (show c.toNat < b.toNat by omega)] at h2
          exact absurd h2 (by simp)
      · rcases Nat.lt_trichotomy b.toNat c.toNat with hbc | hbc | hbc
        · rw [if_pos (show a.toNat < c.toNat by omega)]
        · rw [if_neg (show ¬ a.toNat < b.toNat by omega),
              if_neg (show ¬ b.toNat < a.toNat by omega)] at h1
          rw [if_neg (show ¬ b.toNat < c.toNat by omega),
              if_neg (show ¬ c.toNat < b.toNat by omega)] at h2
          rw [if_neg (show ¬ a.toNat < c.toNat by omega),
              if_neg (show ¬ c.toNat < a.toNat by omega)]
          exact jsLeChars_trans as bs cs h1 h2
        · rw [if_neg (show ¬ b.toNat < c.toNat by omega),
              if_pos (show c.toNat < b.toNat by omega)] at h2
          exact absurd h2 (by simp)
      · rw [if_neg (show ¬ a.toNat < b.toNat by omega),
            if_pos (show b.toNat < a.toNat by omega)] at h1
        exact absurd h1 (by simp)

def jsLeChars_antisymm : ∀ as bs, jsLeChars as bs = true →
    jsLeChars bs as = true → as = bs
  | [], [], _, _ => rfl
  | [], _ :: _, _, h2 => by simp [jsLeChars] at h2
  | _ :: _, [], h1, _ => by simp [jsLeChars] at h1
  | a :: as, b :: bs, h1, h2 => by
      simp only [jsLeChars] at h1 h2
      rcases Nat.lt_trichotomy a.toNat b.toNat with h | h | h
      · rw [if_neg (show ¬ b.toNat < a.toNat by omega),
            if_pos (show a.toNat < b.toNat by omega)] at h2
        exact absurd h2 (by simp)
      · have heq : a = b := Char.ext (UInt32.ext h)
        rw [if_neg (show ¬ a.toNat < b.toNat by omega),
            if_neg (show ¬ b.toNat < a.toNat by omega)] at h1
        rw [if_neg (show ¬ b.toNat < a.toNat by omega),
            if_neg (show ¬ a.toNat < b.toNat by omega)] at h2
        rw [heq, jsLeChars_antisymm as bs h1 h2]
      · rw [if_neg (show ¬ a.toNat < b.toNat by omega),
            if_pos (show b.toNat < a.toNat by omega)] at h1
        exact absurd h1 (by simp)

instance : IsTotal String nameLe :=
  ⟨fun a b => jsLeChars_total a.data b.data⟩

instance : IsTrans String nameLe :=
  ⟨fun a b c => jsLeChars_trans a.data b.data c.data⟩

instance : IsAntisymm String nameLe :=
  ⟨fun a b h1 h2 => by
    cases a; cases b
    exact congrArg String.mk (jsLeChars_antisymm _ _ h1 h2)⟩

/-- files.sort() of hashDir: the readdir names sorted ascending. -/
def sortNames (names : List String) : List String :=
  List.insertionSort nameLe names

/-- True of a successful Except result. -/
def okB {ε α : Type} : Except ε α → Bool
  | .ok _ => true
  | .error _ => false

/-- The entries of a successful hashDir result (empty on error). -/
def entriesOf : Except String (List Entry) → List Entry
  | .ok es => es
  | .error _ => []

/-- The per-child result recorded under a name (the first one, when a
name repeats). -/
def findRes (results : List (String × Except String Entry)) (n : String) :
    Option (String × Except String Entry) :=
  results.find? (fun p => p.1 == n)

/-- Assembling the per-name results in sorted-name order: for each name
the first per-child result recorded under that name is consulted
(result[i] = info in the source, with i the pre-sorted index); a
missing name or a failed child rejects the whole directory. -/
def collect (results : List (String × Except String Entry)) :
    List String → Except String (List Entry)
  | [] => .ok []
  | n :: rest =>
      match findRes results n with
      | none => .error "ENOENT"
      | some (_, .error e) => .error e
      | some (_, .ok ent) =>
          match collect results rest with
          | .error e => .error e
          | .ok es => .ok (ent :: es)

mutual

/-- The entry hashDir computes for one directory child: a present file
is hashed with the byte digest (hashOf); a present directory is hashed
recursively (the inlined body of hashDirChildren) and wrapped in a
DirectoryEntry whose own hash is hashEntries of the recursive result;
an ENOENT child becomes the sentinel FileEntry with hash missing; any
other stat error fails. -/
def childEntry (digB : List Nat → String) (digT : String → String) :
    DirChild → Except String Entry
  | .present n (.file content) => .ok (.file n (digB content))
  | .present n (.dir cs) =>
      match collect (childResults digB digT cs) (sortNames (childrenNames cs)) with
      | .error e => .error e
      | .ok sub => .ok (.directory n (hashEntries digT sub) sub)
  | .dangling n => .ok (.file n "missing")
  | .statFail _ e => .error e
termination_by structural c => c

/-- The per-child results of a directory, keyed by child name, in
readdir order. -/
def childResults (digB : List Nat → String) (digT : String → String) :
    List DirChild → List (String × Except String Entry)
  | [] => []
  | c :: cs => (childName c, childEntry digB digT c) :: childResults digB digT cs
termination_by structural cs => cs

end

/-- FileHasher.hashDir on the children of a directory: sort the readdir
names ascending, compute each child independently, and assemble the
output in sorted-name order. -/
def hashDirChildren (digB : List Nat → String) (digT : String → String)
    (children : List DirChild) : Except String (List Entry) :=
  collect (childResults digB digT children) (sortNames (childrenNames children))

/-- FileHasher.hashDir: readdir a directory and hash it; readdir of a
file fails with ENOTDIR. -/
def hashDir (digB : List Nat → String) (digT : String → String) :
    FsTree → Except String (List Entry)
  | .file _ => .error "ENOTDIR"
  | .dir children => hashDirChildren digB digT children

/-- Write a list of (index, value) events into an array of slots, in
event order. -/
def writeSlots {α : Type} (evs : List (Nat × α)) (arr : List (Option α)) :
    List (Option α) :=
  evs.foldl (fun a p => a.set p.1 (some p.2)) arr

/-- The list of (index, value) pairs of a list, indices starting at i. -/
def indexedFrom {α : Type} (i : Nat) : List α → List (Nat × α)
  | [] => []
  | x :: xs => (i, x) :: indexedFrom (i + 1) xs

/-- The list of (index, value) pairs of a list. -/
def indexed {α : Type} (xs : List α) : List (Nat × α) := indexedFrom 0 xs

/-- What a filesystem name is bound to: a regular file, a directory, a
hard link to another name, or a symbolic link to another name. -/
inductive FsKind where
  | fileK
  | dirK
  | hardK (target : List String)
  | symlinkK (target : List String)
deriving DecidableEq

/-- The error kinds of the store. -/
inductive StoreErr where
  | notFound (hash : String)
  | alreadyExists (p : List String)
  | ioError (msg : String)
deriving DecidableEq

/-- A logged filesystem write. -/
inductive Ev where
  | evMkdir (p : List String)
  | evWriteFile (p : List String)
  | evLink (src dst : List String)
  | evSymlink (target dst : List String)
  | evUnlink (p : List String)
deriving DecidableEq

/-- Association-list lookup by key (the first binding wins, like a
JavaScript object whose keys are written once). -/
def alookup {κ β : Type} [DecidableEq κ] (k : κ) : List (κ × β) → Option β
  | [] => none
  | (k2, v) :: rest => if k2 = k then some v else alookup k rest

/-- The state of a ContentStore together with its filesystem. -/
structure Store where
  location : List String
  entering : List (String × Except StoreErr Unit)
  fs : List (List String × FsKind)
  evs : List Ev

/-- fs.exists on a path. -/
def existsFs (fs : List (List String × FsKind)) (p : List String) : Bool :=
  (alookup p fs).isSome

/-- hash.substr(start): the characters from start on. -/
def substrFrom (s : String) (start : Nat) : String :=
  String.mk (s.data.drop start)

/-- hash.substr(start, len): len characters from start. -/
def substrLen (s : String) (start len : Nat) : String :=
  String.mk ((s.data.drop start).take len)

/-- cacheNameOfHash: path.join(location, hash.substr(0,2),
hash.substr(2,2), hash.substr(4)). -/
def cacheNameOfHash (location : List String) (hash : String) : List String :=
  location ++ [substrLen hash 0 2, substrLen hash 2 2, substrFrom hash 4]

/-- path.dirname: the path without its last component. -/
def pdirname (p : List String) : List String := p.dropLast

/-- The prefixes a recursive mkdir creates, shortest first. -/
def ancestorsOf (p : List String) : List (List String) :=
  (List.range p.length).map (fun i => p.take (i + 1))

/-- One directory-creation step per path prefix: an existing path is
left alone, a missing one becomes a directory. -/
def mkdirSteps (s : Store) : List (List String) → Store
  | [] => s
  | q :: qs =>
      if existsFs s.fs q then mkdirSteps s qs
      else mkdirSteps
        { s with fs := (q, FsKind.dirK) :: s.fs, evs := Ev.evMkdir q :: s.evs } qs

/-- mkdirp: create the directory and its missing ancestors; an existing
path is left alone. -/
def mkdirpFs (s : Store) (p : List String) : Store :=
  mkdirSteps s (ancestorsOf p)

/-- fs.link: hard-link src to dst; fails if src is absent or dst
present. -/
def linkFs (s : Store) (src dst : List String) : Store × Except StoreErr Unit :=
  if existsFs s.fs src = false then (s, .error (.ioError "ENOENT"))
  else if existsFs s.fs dst then (s, .error (.alreadyExists dst))
  else ({ s with
            fs := (dst, FsKind.hardK src) :: s.fs,
            evs := Ev.evLink src dst :: s.evs }, .ok ())

/-- fs.symlink: symbolically link dst to target; fails if dst present
(the target need not exist). -/
def symlinkFs (s : Store) (target dst : List String) : Store × Except StoreErr Unit :=
  if existsFs s.fs dst then (s, .error (.alreadyExists dst))
  else ({ s with
            fs := (dst, FsKind.symlinkK target) :: s.fs,
            evs := Ev.evSymlink target dst :: s.evs }, .ok ())

/-- fs.unlink: remove every binding of the path. -/
def unlinkFs (s : Store) (p : List String) : Store × Except StoreErr Unit :=
  if existsFs s.fs p then
    ({ s with
        fs := s.fs.filter (fun q => q.1 != p),
        evs := Ev.evUnlink p :: s.evs }, .ok ())
  else (s, .error (.ioError "ENOENT"))

/-- createWriteStream and the stream copy into it: the destination
becomes a regular file. -/
def writeFileFs (s : Store) (p : List String) : Store :=
  { s with fs := (p, FsKind.fileK) :: s.fs, evs := Ev.evWriteFile p :: s.evs }

/-- copyFile: read src and write its bytes to dst. -/
def copyFileFs (s : Store) (src dst : List String) : Store × Except StoreErr Unit :=
  if existsFs s.fs src then (writeFileFs s dst, .ok ())
  else (s, .error (.ioError "ENOENT"))

/-- stat(...).isDirectory() on a path (cache entries are regular files
or real directories, never links, so one level of symlink resolution
suffices for the model). -/
def isDirFs (fs : List (List String × FsKind)) (p : List String) : Bool :=
  match alookup p fs with
  | some FsKind.dirK => true
  | some (FsKind.symlinkK t) =>
      match alookup t fs with
      | some FsKind.dirK => true
      | _ => false
  | _ => false

/-- ContentStore.realize: require the cache entry for the hash to
exist, then symlink it to the location when it is a directory and
hard-link it otherwise. -/
def realize (s : Store) (location : List String) (hash : String) :
    Store × Except StoreErr (List String) :=
  let fullHashName := cacheNameOfHash s.location hash
  if existsFs s.fs fullHashName = false then
    (s, .error (.notFound hash))
  else if isDirFs s.fs fullHashName then
    match symlinkFs s fullHashName location with
    | (s2, .ok _) => (s2, .ok location)
    | (s2, .error e) => (s2, .error e)
  else
    match linkFs s fullHashName location with
    | (s2, .ok _) => (s2, .ok location)
    | (s2, .error e) => (s2, .error e)

/-- tmpFileName: try random candidate names under the store location
until one does not exist; the candidate supply is the oracle for the
random number generator. -/
def tmpFileName (location : List String) (fs : List (List String × FsKind))
    (cands : List String) : Option (List String) :=
  match cands.find? (fun c => !existsFs fs (location ++ ["tmp-" ++ c])) with
  | some c => some (location ++ ["tmp-" ++ c])
  | none => none

/-- enterHashedStream: once the hash of the streamed bytes is known,
link the temp file into its sharded cache path unless that path already
exists, and then remove the temp file (the unlink runs on both paths;
an error before it leaves the temp file behind). -/
def enterHashedStream (s : Store) (tmpFile : List String) (hash : String) :
    Store × Except StoreErr Unit :=
  let fullCacheName := cacheNameOfHash s.location hash
  if existsFs s.fs fullCacheName = false then
    let s1 := mkdirpFs s (pdirname fullCacheName)
    match linkFs s1 tmpFile fullCacheName with
    | (s2, .ok _) =>
        match unlinkFs s2 tmpFile with
        | (s3, .ok _) => (s3, .ok ())
        | (s3, .error e) => (s3, .error e)
    | (s2, .error e) => (s2, .error e)
  else
    match unlinkFs s tmpFile with
    | (s2, .ok _) => (s2, .ok ())
    | (s2, .error e) => (s2, .error e)

/-- The outcome of enterStream: the updated store with its filesystem,
the returned hash or error, and the temp file the call created. -/
structure StreamResult where
  store : Store
  result : Except StoreErr String
  tmp : Option (List String)

/-- ContentStore.enterStream: ensure the store location exists, pick a
fresh temp name, copy the stream to it while digesting with the literal
sha1 algorithm, then either attach to an in-flight ingestion for the
hash (leaving the temp file in place) or run enterHashedStream and
record it in the in-flight table. -/
def enterStream (s : Store) (cands : List String)
    (dig : String → List Nat → String) (content : List Nat) : StreamResult :=
  let s1 := mkdirpFs s s.location
  match tmpFileName s1.location s1.fs cands with
  | none => ⟨s1, .error (.ioError "tmp"), none⟩
  | some tmpFile =>
      let s2 := writeFileFs s1 tmpFile
      let hash := dig "sha1" content
      match alookup hash s2.entering with
      | some (Except.ok _) => ⟨s2, .ok hash, some tmpFile⟩
      | some (Except.error e) => ⟨s2, .error e, some tmpFile⟩
      | none =>
          match enterHashedStream s2 tmpFile hash with
          | (s3, o) =>
              let s4 := { s3 with entering := (hash, o) :: s3.entering }
              match o with
              | .ok _ => ⟨s4, .ok hash, some tmpFile⟩
              | .error e => ⟨s4, .error e, some tmpFile⟩

/-- enterHashedFileImpl: copy the named file into its sharded cache
path unless that path already exists. -/
def enterHashedFileImpl (s : Store) (filename : List String) (hash : String) :
    Store × Except StoreErr Unit :=
  let fullCacheName := cacheNameOfHash s.location hash
  if existsFs s.fs fullCacheName = false then
    let s1 := mkdirpFs s (pdirname fullCacheName)
    copyFileFs s1 filename fullCacheName
  else (s, .ok ())

/-- enterHashedFile: return the memoized ingestion for the hash when
one exists, otherwise run the implementation and record it in the
in-flight table (the source stores the promise at start; the
sequential model records the completed outcome). -/
def enterHashedFile (s : Store) (filename : List String) (hash : String) :
    Store × Except StoreErr Unit :=
  match alookup hash s.entering with
  | some o => (s, o)
  | none =>
      match enterHashedFileImpl s filename hash with
      | (s1, o) => ({ s1 with entering := (hash, o) :: s1.entering }, o)

/-- The per-child realize loop of enterHashedDirectoryImpl: realize
every entry at its name inside the directory cache node (Promise.all,
sequentialized with the first failure propagating). -/
def realizeEntries (s : Store) (fullDirectoryName : List String) :
    List Entry → Store × Except StoreErr Unit
  | [] => (s, .ok ())
  | e :: es =>
      match realize s (fullDirectoryName ++ [Entry.name e]) (Entry.entryHash e) with
      | (s1, .ok _) => realizeEntries s1 fullDirectoryName es
      | (s1, .error er) => (s1, .error er)

mutual

/-- ensureEntry: short-circuit on the in-flight table, then ingest a
directory entry via enterHashedDirectory (inlined here, with its own
table check, so that the recursion is structural) or a file entry via
enterHashedFile. -/
def ensureEntry (s : Store) (directory : List String) :
    Entry → Store × Except StoreErr Unit
  | .file n h =>
      match alookup h s.entering with
      | some o => (s, o)
      | none => enterHashedFile s (directory ++ [n]) h
  | .directory n h fs =>
      match alookup h s.entering with
      | some o => (s, o)
      | none =>
          match alookup h s.entering with
          | some o => (s, o)
          | none =>
              let fullDirectoryName := cacheNameOfHash s.location h
              if existsFs s.fs fullDirectoryName then
                ({ s with entering := (h, Except.ok ()) :: s.entering }, .ok ())
              else
                match ensureEntries s (directory ++ [n]) fs with
                | (s1, .error er) =>
                    ({ s1 with entering := (h, .error er) :: s1.entering }, .error er)
                | (s1, .ok _) =>
                    let s2 := mkdirpFs s1 fullDirectoryName
                    match realizeEntries s2 fullDirectoryName fs with
                    | (s3, .error er) =>
                        ({ s3 with entering := (h, .error er) :: s3.entering }, .error er)
                    | (s3, .ok _) =>
                        ({ s3 with entering := (h, Except.ok ()) :: s3.entering }, .ok ())
termination_by structural e => e

/-- The child loop of enterHashedDirectoryImpl: ensure every entry is
ingested (Promise.all, sequentialized with the first failure
propagating). -/
def ensureEntries (s : Store) (directory : List String) :
    List Entry → Store × Except StoreErr Unit
  | [] => (s, .ok ())
  | e :: es =>
      match ensureEntry s directory e with
      | (s1, .ok _) => ensureEntries s1 directory es
      | (s1, .error er) => (s1, .error er)
termination_by structural es => es

end

/-- enterHashedDirectory together with enterHashedDirectoryImpl: return
the memoized ingestion for the hash when one exists; otherwise, if the
sharded cache path for the hash already exists do nothing, else ensure
every child is ingested, create the cache directory, and realize every
child inside it; the outcome is recorded in the in-flight table. -/
def enterHashedDirectory (s : Store) (directory : List String)
    (entries : List Entry) (hash : String) : Store × Except StoreErr Unit :=
  match alookup hash s.entering with
  | some o => (s, o)
  | none =>
      let fullDirectoryName := cacheNameOfHash s.location hash
      if existsFs s.fs fullDirectoryName then
        ({ s with entering := (hash, Except.ok ()) :: s.entering }, .ok ())
      else
        match ensureEntries s directory entries with
        | (s1, .error er) =>
            ({ s1 with entering := (hash, .error er) :: s1.entering }, .error er)
        | (s1, .ok _) =>
            let s2 := mkdirpFs s1 fullDirectoryName
            match realizeEntries s2 fullDirectoryName entries with
            | (s3, .error er) =>
                ({ s3 with entering := (hash, .error er) :: s3.entering }, .error er)
            | (s3, .ok _) =>
                ({ s3 with entering := (hash, Except.ok ()) :: s3.entering }, .ok ())

mutual

/-- One child of enterHashVirtualDirectoryImpl: a directory entry goes
through realizeHashedVirtualDirectory (inlined here so that the
recursion is structural: enter the virtual directory for the child
hash, then symlink its cache node at the child name); a file entry is
realized from its cache entry.  Entries are discriminated with the
files-field isDirectory of the second entries.ts. -/
def vEntry (s : Store) (fullHashName : List String) :
    Entry → Store × Except StoreErr Unit
  | .file n h =>
      match realize s (fullHashName ++ [n]) h with
      | (s1, .ok _) => (s1, .ok ())
      | (s1, .error er) => (s1, .error er)
  | .directory n h fs =>
      match alookup h s.entering with
      | some (Except.error er) => (s, .error er)
      | some (Except.ok _) =>
          match symlinkFs s (cacheNameOfHash s.location h) (fullHashName ++ [n]) with
          | (s1, .ok _) => (s1, .ok ())
          | (s1, .error er) => (s1, .error er)
      | none =>
          let inner := cacheNameOfHash s.location h
          if existsFs s.fs inner then
            let s1 := { s with entering := (h, Except.ok ()) :: s.entering }
            match symlinkFs s1 inner (fullHashName ++ [n]) with
            | (s2, .ok _) => (s2, .ok ())
            | (s2, .error er) => (s2, .error er)
          else
            let s1 := mkdirpFs s inner
            match vChildren s1 inner fs with
            | (s2, .error er) =>
                ({ s2 with entering := (h, .error er) :: s2.entering }, .error er)
            | (s2, .ok _) =>
                let s3 := { s2 with entering := (h, Except.ok ()) :: s2.entering }
                match symlinkFs s3 inner (fullHashName ++ [n]) with
                | (s4, .ok _) => (s4, .ok ())
                | (s4, .error er) => (s4, .error er)
termination_by structural e => e

/-- The child loop of enterHashVirtualDirectoryImpl (Promise.all,
sequentialized with the first failure propagating). -/
def vChildren (s : Store) (fullHashName : List String) :
    List Entry → Store × Except StoreErr Unit
  | [] => (s, .ok ())
  | e :: es =>
      match vEntry s fullHashName e with
      | (s1, .ok _) => vChildren s1 fullHashName es
      | (s1, .error er) => (s1, .error er)
termination_by structural es => es

end

/-- enterHashedVirtualDirectory together with
enterHashVirtualDirectoryImpl: return the memoized ingestion for the
hash when one exists; otherwise, if the sharded cache path for the hash
already exists do nothing, else create the cache directory and
materialize every entry inside it (directories recursively as virtual
directories, files from their cache entries); the outcome is recorded
in the in-flight table. -/
def enterHashedVirtualDirectory (s : Store) (hash : String)
    (entries : List Entry) : Store × Except StoreErr Unit :=
  match alookup hash s.entering with
  | some o => (s, o)
  | none =>
      let fullHashName := cacheNameOfHash s.location hash
      if existsFs s.fs fullHashName then
        ({ s with entering := (hash, Except.ok ()) :: s.entering }, .ok ())
      else
        let s1 := mkdirpFs s fullHashName
        match vChildren s1 fullHashName entries with
        | (s2, .error er) =>
            ({ s2 with entering := (hash, .error er) :: s2.entering }, .error er)
        | (s2, .ok _) =>
            ({ s2 with entering := (hash, Except.ok ()) :: s2.entering }, .ok ())

/-- realizeHashedVirtualDirectory: ensure the virtual directory is in
the cache, then symlink its cache node to the location. -/
def realizeHashedVirtualDirectory (s : Store) (location : List String)
    (hash : String) (entries : List Entry) : Store × Except StoreErr String :=
  let fullHashName := cacheNameOfHash s.location hash
  match enterHashedVirtualDirectory s hash entries with
  | (s1, .error e) => (s1, .error e)
  | (s1, .ok _) =>
      match symlinkFs s1 fullHashName location with
      | (s2, .ok _) => (s2, .ok hash)
      | (s2, .error e) => (s2, .error e)

/-- ContentStore.enterVirtualDirectory: hash the entries and enter the
virtual directory under that hash. -/
def enterVirtualDirectory (s : Store) (digT : String → String)
    (entries : List Entry) : Store × Except StoreErr String :=
  let hash := hashEntries digT entries
  match enterHashedVirtualDirectory s hash entries with
  | (s1, .ok _) => (s1, .ok hash)
  | (s1, .error e) => (s1, .error e)

/-- The in-flight table state: the table maps each hash to the
operation identifier and outcome of its one started ingestion, nextOp
is the allocator, and starts logs each physically started ingestion. -/
structure MemoState where
  table : List (String × Nat × Except StoreErr Unit)
  nextOp : Nat
  starts : List String

/-- A store starts with an empty in-flight table. -/
def initMemo : MemoState := ⟨[], 0, []⟩

/-- One call that needs a hash ingested: if the table holds an
operation for the hash, return it unchanged (attach); otherwise start
the physical ingestion (log it, with outcome out) and record it in the
table. -/
def memoCall (s : MemoState) (h : String) (out : Except StoreErr Unit) :
    MemoState × Nat × Except StoreErr Unit :=
  match alookup h s.table with
  | some v => (s, v)
  | none =>
      (⟨(h, s.nextOp, out) :: s.table, s.nextOp + 1, h :: s.starts⟩, s.nextOp, out)

/-- Run a trace of calls against the table. -/
def runCalls (s : MemoState) : List (String × Except StoreErr Unit) → MemoState
  | [] => s
  | (h, out) :: rest => runCalls (memoCall s h out).1 rest

/-- The number of occurrences of a hash in a log. -/
def countS (h : String) : List String → Nat
  | [] => 0
  | x :: rest => (if x = h then 1 else 0) + countS h rest

/-- Repeated update calls on a crypto hash accumulate the bytes. -/
def hashUpdateFold (chunks : List (List Nat)) : List Nat :=
  chunks.foldl (fun acc c => acc ++ c) []

/-- FileHasher.hashOf: createHash(this.algorithm), update per data
chunk, digest(hex) at end. -/
def hashOf (dig : String → List Nat → String) (algorithm : String)
    (chunks : List (List Nat)) : String :=
  dig algorithm (hashUpdateFold chunks)

/-- The hash copyStream resolves with: HashTransformStream is
constructed with the literal algorithm sha1, updates per transformed
chunk, and digests at flush. -/
def copyStreamHash (dig : String → List Nat → String)
    (chunks : List (List Nat)) : String :=
  dig "sha1" (hashUpdateFold chunks)

/-- The invariant tying the starts log to the table: every hash was
started at most once, and exactly the started hashes are in the table. -/
def MemoInv (s : MemoState) : Prop :=
  (∀ h, countS h s.starts ≤ 1) ∧
  (∀ h, h ∈ s.starts ↔ (alookup h s.table).isSome)

theorem hashedEntryJson_eq_spec (e : Entry) (he : dirNameNonempty e) :
    hashedEntryJson e = specReducedEntryJson e := by
  cases e with
  | file n h => rfl
  | directory n h fs =>
      simp only [dirNameNonempty] at he
      simp [hashedEntryJson, specReducedEntryJson, isDirectoryByNameField, he]

theorem specReducedEntryJson_shape (e1 e2 : Entry)
    (h : entryShape e1 = entryShape e2) :
    specReducedEntryJson e1 = specReducedEntryJson e2 := by
  cases e1 <;> cases e2 <;> simp_all [entryShape, specReducedEntryJson]

theorem map_spec_of_shape : ∀ (es1 es2 : List Entry),
    es1.map entryShape = es2.map entryShape →
    es1.map specReducedEntryJson = es2.map specReducedEntryJson
  | [], [], _ => rfl
  | e1 :: es1, e2 :: es2, h => by
      simp only [List.map_cons, List.cons.injEq] at h ⊢
      exact ⟨specReducedEntryJson_shape e1 e2 h.1, map_spec_of_shape es1 es2 h.2⟩

theorem hashEntriesJson_eq_spec (es : List Entry)
    (h : ∀ e ∈ es, dirNameNonempty e) :
    hashEntriesJson es = specHashEntriesJson es := by
  simp only [hashEntriesJson, specHashEntriesJson]
  congr 1
  exact List.map_congr_left fun e he => hashedEntryJson_eq_spec e (h e he)

/-- C2 (amended): for every entries list in which every directory entry
has a nonempty name, hashEntries equals the digest of the
deterministic serialization of the list in which each directory entry
is reduced to exactly its name and its hash (its files dropped) and
each file entry passes through unchanged; and on such lists the hash
depends on nothing deeper than the top-level kinds, names and hashes,
in list order. -/
theorem hashEntries_canonical (digest : String → String)
    (es1 es2 : List Entry)
    (h1 : ∀ e ∈ es1, dirNameNonempty e) (h2 : ∀ e ∈ es2, dirNameNonempty e) :
    hashEntries digest es1 = digest (stringify (specHashEntriesJson es1)) ∧
    (es1.map entryShape = es2.map entryShape →
      hashEntries digest es1 = hashEntries digest es2) := by
  constructor
  · unfold hashEntries
    rw [hashEntriesJson_eq_spec es1 h1]
  · intro hshape
    unfold hashEntries
    rw [hashEntriesJson_eq_spec es1 h1, hashEntriesJson_eq_spec es2 h2]
    unfold specHashEntriesJson
    rw [map_spec_of_shape es1 es2 hshape]

/-- Witness for the amended C2 theorem at concrete inputs. -/
theorem hashEntries_canonical_witness :
    (∀ e ∈ [Entry.file "a" "h1", Entry.directory "b" "h2" []], dirNameNonempty e) ∧
    ((∀ e ∈ [Entry.file "a" "h1", Entry.directory "b" "h2" []], dirNameNonempty e) →
      hashEntries id [Entry.file "a" "h1", Entry.directory "b" "h2" []] =
        id (stringify (specHashEntriesJson [Entry.file "a" "h1", Entry.directory "b" "h2" []])) ∧
      ([Entry.file "a" "h1", Entry.directory "b" "h2" []].map entryShape =
          [Entry.file "a" "h1", Entry.directory "b" "h2" [Entry.file "c" "h3"]].map entryShape →
        hashEntries id [Entry.file "a" "h1", Entry.directory "b" "h2" []] =
          hashEntries id [Entry.file "a" "h1", Entry.directory "b" "h2" [Entry.file "c" "h3"]])) := by
  refine ⟨by decide, ?_⟩
  intro h
  exact hashEntries_canonical id
    [Entry.file "a" "h1", Entry.directory "b" "h2" []]
    [Entry.file "a" "h1", Entry.directory "b" "h2" [Entry.file "c" "h3"]]
    h (by decide)

/-- C2 counterexample: a directory entry whose name is the empty string
is not recognised by the truthiness-based isDirectory, so it passes
through hashEntries unreduced, files included.  Two entries lists that
agree in every top-level name, hash and kind — and whose spec-side
reduced serializations coincide — therefore hash differently (the
digest here is the identity function on the serialized text), so the
hash of the list depends on content deeper than the immediate child
names and hashes, contrary to the claim. -/
theorem hashEntries_counterexample :
    specHashEntriesJson [Entry.directory "" "h" [Entry.file "x" "k"]] =
      specHashEntriesJson [Entry.directory "" "h" []] ∧
    List.map entryShape [Entry.directory "" "h" [Entry.file "x" "k"]] =
      List.map entryShape [Entry.directory "" "h" []] ∧
    hashEntries id [Entry.directory "" "h" [Entry.file "x" "k"]] ≠
      hashEntries id [Entry.directory "" "h" []] := by
  refine ⟨rfl, rfl, ?_⟩
  decide



theorem sortNames_sorted (names : List String) :
    List.Sorted nameLe (sortNames names) :=
  List.sorted_insertionSort nameLe names

theorem sortNames_perm (names : List String) : (sortNames names).Perm names :=
  List.perm_insertionSort nameLe names

theorem sortNames_congr {ns1 ns2 : List String} (h : ns1.Perm ns2) :
    sortNames ns1 = sortNames ns2 :=
  List.eq_of_perm_of_sorted
    (((sortNames_perm ns1).trans h).trans (sortNames_perm ns2).symm)
    (sortNames_sorted ns1) (sortNames_sorted ns2)

theorem mem_sortNames {n : String} {names : List String} :
    n ∈ sortNames names ↔ n ∈ names :=
  (sortNames_perm names).mem_iff

theorem childResults_eq_map (digB : List Nat → String) (digT : String → String) :
    ∀ children, childResults digB digT children =
      children.map (fun c => (childName c, childEntry digB digT c))
  | [] => rfl
  | c :: cs => by
      rw [childResults, childResults_eq_map digB digT cs, List.map_cons]

theorem childEntry_name {digB : List Nat → String} {digT : String → String}
    {c : DirChild} {ent : Entry} (h : childEntry digB digT c = .ok ent) :
    ent.name = childName c := by
  cases c with
  | present n t =>
      cases t with
      | file content =>
          simp only [childEntry] at h
          cases h
          rfl
      | dir cs =>
          simp only [childEntry] at h
          cases hrec : collect (childResults digB digT cs) (sortNames (childrenNames cs)) <;>
            rw [hrec] at h
          · cases h
          · cases h
            rfl
  | dangling n =>
      simp only [childEntry] at h
      cases h
      rfl
  | statFail n e =>
      simp only [childEntry] at h
      cases h

theorem findRes_childResults (digB : List Nat → String) (digT : String → String)
    (n : String) : ∀ children,
    findRes (childResults digB digT children) n =
      (children.find? (fun c => childName c == n)).map
        (fun c => (childName c, childEntry digB digT c))
  | [] => rfl
  | c :: cs => by
      by_cases h : (childName c == n) = true
      · rw [findRes, childResults,
            @List.find?_cons_of_pos _ (fun p => p.1 == n)
              (childName c, childEntry digB digT c) (childResults digB digT cs) h,
            @List.find?_cons_of_pos _ (fun d => childName d == n) c cs h,
            Option.map]
      · rw [findRes, childResults,
            @List.find?_cons_of_neg _ (fun p => p.1 == n)
              (childName c, childEntry digB digT c) (childResults digB digT cs) h,
            @List.find?_cons_of_neg _ (fun d => childName d == n) c cs h]
        exact findRes_childResults digB digT n cs

theorem unique_child_find? {children : List DirChild} {c : DirChild} {n : String}
    (hnodup : (childrenNames children).Nodup) (hc : c ∈ children)
    (hn : childName c = n) :
    children.find? (fun d => childName d == n) = some c := by
  cases hfind : children.find? (fun d => childName d == n) with
  | none =>
      rw [List.find?_eq_none] at hfind
      exact absurd (by simp [hn] : (childName c == n) = true) (hfind c hc)
  | some d =>
      have hd1 : childName d = n := by
        have := List.find?_some hfind
        simpa using this
      have hd2 : d ∈ children := List.mem_of_find?_eq_some hfind
      have : d = c :=
        List.inj_on_of_nodup_map hnodup hd2 hc (by rw [hd1, hn])
      rw [this]

theorem collect_ok_names {results : List (String × Except String Entry)}
    (hname : ∀ p ∈ results, ∀ ent, p.2 = Except.ok ent → ent.name = p.1) :
    ∀ names es, collect results names = .ok es → es.map Entry.name = names := by
  intro names
  induction names with
  | nil =>
      intro es h
      simp only [collect] at h
      cases h
      rfl
  | cons n rest ih =>
      intro es h
      simp only [collect] at h
      cases hf : findRes results n with
      | none => rw [hf] at h; cases h
      | some p =>
          obtain ⟨k, r⟩ := p
          rw [hf] at h
          cases r with
          | error e => cases h
          | ok ent =>
              cases hrec : collect results rest with
              | error e => rw [hrec] at h; cases h
              | ok es2 =>
                  rw [hrec] at h
                  cases h
                  have hk : k = n := by
                    have := List.find?_some hf
                    simpa using this
                  have hmem : (k, Except.ok ent) ∈ results :=
                    List.mem_of_find?_eq_some hf
                  have : ent.name = k := hname _ hmem ent rfl
                  simp [this, hk, ih es2 hrec]

theorem collect_isOk {results : List (String × Except String Entry)} :
    ∀ names, (∀ n ∈ names, ∃ k ent, findRes results n = some (k, .ok ent)) →
    ∃ es, collect results names = .ok es
  | [], _ => ⟨[], rfl⟩
  | n :: rest, h => by
      obtain ⟨k, ent, hf⟩ := h n (by simp)
      obtain ⟨es2, hrec⟩ := collect_isOk rest (fun m hm => h m (by simp [hm]))
      exact ⟨ent :: es2, by simp only [collect, hf, hrec]⟩

theorem collect_mem {results : List (String × Except String Entry)}
    {n k : String} {ent : Entry} (hf : findRes results n = some (k, .ok ent)) :
    ∀ names es, collect results names = .ok es → n ∈ names → ent ∈ es := by
  intro names
  induction names with
  | nil => intro es _ hn; cases hn
  | cons m rest ih =>
      intro es h hn
      simp only [collect] at h
      by_cases hmn : m = n
      · subst hmn
        rw [hf] at h
        cases hrec : collect results rest with
        | error e => rw [hrec] at h; cases h
        | ok es2 =>
            rw [hrec] at h
            cases h
            exact List.mem_cons_self ent es2
      · have hn2 : n ∈ rest := by
          cases hn with
          | head => exact absurd rfl hmn
          | tail _ h2 => exact h2
        cases hfm : findRes results m with
        | none => rw [hfm] at h; cases h
        | some p =>
            obtain ⟨k2, r2⟩ := p
            rw [hfm] at h
            cases r2 with
            | error e => cases h
            | ok ent2 =>
                cases hrec : collect results rest with
                | error e => rw [hrec] at h; cases h
                | ok es2 =>
                    rw [hrec] at h
                    cases h
                    exact List.mem_cons_of_mem ent2 (ih es2 hrec hn2)

theorem collect_error {results : List (String × Except String Entry)}
    {n k : String} {e : String} (hf : findRes results n = some (k, .error e)) :
    ∀ names, n ∈ names →
    (∀ m ∈ names, m ≠ n → ∃ k2 ent2, findRes results m = some (k2, .ok ent2)) →
    collect results names = .error e := by
  intro names
  induction names with
  | nil => intro hn; cases hn
  | cons m rest ih =>
      intro hn hok
      by_cases hmn : m = n
      · subst hmn
        simp only [collect, hf]
      · have hn2 : n ∈ rest := by
          cases hn with
          | head => exact absurd rfl hmn
          | tail _ h2 => exact h2
        obtain ⟨k2, ent2, hfm⟩ := hok m (by simp) hmn
        have hrec : collect results rest = .error e :=
          ih hn2 (fun m2 hm2 hne => hok m2 (by simp [hm2]) hne)
        simp only [collect, hfm, hrec]

theorem collect_congr {r1 r2 : List (String × Except String Entry)}
    (h : ∀ n, findRes r1 n = findRes r2 n) :
    ∀ names, collect r1 names = collect r2 names
  | [] => rfl
  | n :: rest => by
      simp only [collect, h n, collect_congr h rest]

theorem find?_children_perm {children children2 : List DirChild}
    (hp : children.Perm children2) (hnodup : (childrenNames children).Nodup)
    (n : String) :
    children.find? (fun c => childName c == n) =
      children2.find? (fun c => childName c == n) := by
  have hnodup2 : (childrenNames children2).Nodup :=
    ((hp.map childName).nodup_iff).mp hnodup
  cases hfind : children.find? (fun c => childName c == n) with
  | none =>
      rw [List.find?_eq_none] at hfind
      symm
      rw [List.find?_eq_none]
      intro x hx
      exact hfind x (hp.mem_iff.mpr hx)
  | some c =>
      have hc1 : childName c = n := by simpa using List.find?_some hfind
      have hc2 : c ∈ children2 := hp.mem_iff.mp (List.mem_of_find?_eq_some hfind)
      exact (unique_child_find? hnodup2 hc2 hc1).symm

theorem mem_indexedFrom {α : Type} :
    ∀ {xs : List α} {i j : Nat} {x : α},
      (j, x) ∈ indexedFrom i xs ↔ ∃ k, j = i + k ∧ xs[k]? = some x := by
  intro xs
  induction xs with
  | nil => intro i j x; simp [indexedFrom]
  | cons y ys ih =>
      intro i j x
      simp only [indexedFrom, List.mem_cons]
      constructor
      · intro h
        cases h with
        | inl h =>
            cases h
            exact ⟨0, by simp⟩
        | inr h =>
            obtain ⟨k, hk1, hk2⟩ := ih.mp h
            exact ⟨k + 1, by omega, by simpa using hk2⟩
      · intro h
        obtain ⟨k, hk1, hk2⟩ := h
        cases k with
        | zero =>
            left
            simp only [List.getElem?_cons_zero, Option.some.injEq] at hk2
            simp [hk1, hk2]
        | succ k2 =>
            right
            exact ih.mpr ⟨k2, by omega, by simpa using hk2⟩

theorem mem_indexed {α : Type} {xs : List α} {j : Nat} {x : α} :
    (j, x) ∈ indexed xs ↔ xs[j]? = some x := by
  rw [indexed, mem_indexedFrom]
  constructor
  · rintro ⟨k, hk1, hk2⟩
    rw [hk1]
    simpa using hk2
  · intro h
    exact ⟨j, by omega, h⟩

theorem indexedFrom_fst_nodup {α : Type} :
    ∀ (xs : List α) (i : Nat), ((indexedFrom i xs).map Prod.fst).Nodup
  | [], _ => List.nodup_nil
  | x :: xs, i => by
      simp only [indexedFrom, List.map_cons, List.nodup_cons]
      constructor
      · intro hmem
        obtain ⟨p, hp1, hp2⟩ := List.mem_map.mp hmem
        obtain ⟨j, v⟩ := p
        simp only at hp2
        subst hp2
        obtain ⟨k, hk1, _⟩ := mem_indexedFrom.mp hp1
        omega
      · exact indexedFrom_fst_nodup xs (i + 1)

theorem writeSlots_notmem {α : Type} :
    ∀ (evs : List (Nat × α)) (arr : List (Option α)) (j : Nat),
      j ∉ evs.map Prod.fst → (writeSlots evs arr)[j]? = arr[j]?
  | [], _, _, _ => rfl
  | (i, x) :: evs, arr, j, h => by
      simp only [List.map_cons, List.mem_cons, not_or] at h
      rw [writeSlots, List.foldl_cons]
      have := writeSlots_notmem evs (arr.set i (some x)) j h.2
      rw [writeSlots] at this
      rw [this, List.getElem?_set_ne (by exact fun heq => h.1 heq.symm)]

theorem writeSlots_mem {α : Type} :
    ∀ (evs : List (Nat × α)) (arr : List (Option α)) (j : Nat) (x : α),
      (evs.map Prod.fst).Nodup → (j, x) ∈ evs → j < arr.length →
      (writeSlots evs arr)[j]? = some (some x)
  | [], _, _, _, _, hmem, _ => absurd hmem (List.not_mem_nil _)
  | (i, y) :: evs, arr, j, x, hnodup, hmem, hlen => by
      simp only [List.map_cons, List.nodup_cons] at hnodup
      rw [writeSlots, List.foldl_cons]
      cases hmem with
      | head =>
          have hnot : i ∉ evs.map Prod.fst := hnodup.1
          have := writeSlots_notmem evs (arr.set i (some y)) i hnot
          rw [writeSlots] at this
          rw [this, List.getElem?_set_self hlen]
      | tail _ h2 =>
          have := writeSlots_mem evs (arr.set i (some y)) j x hnodup.2 h2
            (by rw [List.length_set]; exact hlen)
          rw [writeSlots] at this
          rw [this]

theorem writeSlots_perm_indexed {α : Type} {xs : List α} {evs : List (Nat × α)}
    (hp : evs.Perm (indexed xs)) :
    writeSlots evs (List.replicate xs.length none) = xs.map some := by
  have hnodup : (evs.map Prod.fst).Nodup :=
    ((hp.map Prod.fst).nodup_iff).mpr (indexedFrom_fst_nodup xs 0)
  apply List.ext_getElem?
  intro j
  by_cases hj : j < xs.length
  · have hx : xs[j]? = some xs[j] := List.getElem?_eq_getElem hj
    have hmem : (j, xs[j]) ∈ evs := hp.mem_iff.mpr (mem_indexed.mpr hx)
    rw [writeSlots_mem evs _ j xs[j] hnodup hmem (by simpa using hj)]
    rw [List.getElem?_map, hx]
    rfl
  · have hnot : j ∉ evs.map Prod.fst := by
      intro hmem
      obtain ⟨p, hp1, hp2⟩ := List.mem_map.mp hmem
      obtain ⟨j2, v⟩ := p
      simp only at hp2
      rw [hp2] at hp1
      have hidx := mem_indexed.mp (hp.mem_iff.mp hp1)
      rw [List.getElem?_eq_none (Nat.le_of_not_lt hj)] at hidx
      cases hidx
    rw [writeSlots_notmem evs _ j hnot]
    rw [List.getElem?_eq_none (by simpa using Nat.le_of_not_lt hj)]
    rw [List.getElem?_eq_none (by simpa using Nat.le_of_not_lt hj)]

/-- C3: for every directory, hashDir returns an Entries list ordered by
name in the sorted readdir order; the assembled output is the same for
every completion order of the per-child operations (the slots may be
filled in any permutation of the indexed entries and the result is the
entries list itself); and readdir listings that are permutations of one
another (identical name and content structure regardless of filesystem
creation order) yield the same Entries list. -/
theorem hashDir_output_order (digB : List Nat → String) (digT : String → String)
    (children : List DirChild) (es : List Entry)
    (h : hashDir digB digT (.dir children) = .ok es) :
    es.map Entry.name = sortNames (childrenNames children) ∧
    (∀ evs, evs.Perm (indexed es) →
      writeSlots evs (List.replicate es.length none) = es.map some) ∧
    (∀ children2, children.Perm children2 → (childrenNames children).Nodup →
      hashDir digB digT (.dir children2) = .ok es) := by
  have hmain : collect (childResults digB digT children)
      (sortNames (childrenNames children)) = .ok es := h
  refine ⟨?_, ?_, ?_⟩
  · apply collect_ok_names ?_ _ es hmain
    intro p hp ent hent
    rw [childResults_eq_map] at hp
    obtain ⟨c, hc, hpc⟩ := List.mem_map.mp hp
    rw [← hpc] at hent ⊢
    exact childEntry_name hent
  · intro evs hperm
    exact writeSlots_perm_indexed hperm
  · intro children2 hperm hnodup
    show collect (childResults digB digT children2)
      (sortNames (childrenNames children2)) = .ok es
    rw [← sortNames_congr
      (show (childrenNames children).Perm (childrenNames children2) from
        hperm.map childName)]
    have hcc := @collect_congr (childResults digB digT children2)
      (childResults digB digT children)
      (fun n => by
        rw [findRes_childResults, findRes_childResults,
          find?_children_perm hperm hnodup n])
      (sortNames (childrenNames children))
    exact hcc.trans hmain

/-- Witness for the C3 theorem at a concrete two-child directory, with
the completion-order part instantiated at the reversed event order and
the permutation part at the reversed readdir listing. -/
theorem hashDir_output_order_witness :
    List.map Entry.name [Entry.file "a" "h", Entry.file "b" "h"] =
      sortNames (childrenNames
        [DirChild.present "b" (FsTree.file [1]), DirChild.present "a" (FsTree.file [2])]) ∧
    writeSlots [(1, Entry.file "b" "h"), (0, Entry.file "a" "h")]
        (List.replicate (List.length [Entry.file "a" "h", Entry.file "b" "h"]) none) =
      [Entry.file "a" "h", Entry.file "b" "h"].map some ∧
    hashDir (fun _ => "h") (fun _ => "t")
        (.dir [DirChild.present "a" (FsTree.file [2]), DirChild.present "b" (FsTree.file [1])]) =
      .ok [Entry.file "a" "h", Entry.file "b" "h"] := by
  have main := hashDir_output_order (fun _ => "h") (fun _ => "t")
    [DirChild.present "b" (FsTree.file [1]), DirChild.present "a" (FsTree.file [2])]
    [Entry.file "a" "h", Entry.file "b" "h"] rfl
  refine ⟨main.1, ?_, ?_⟩
  · exact main.2.1 [(1, Entry.file "b" "h"), (0, Entry.file "a" "h")]
      (List.Perm.swap _ _ _)
  · exact main.2.2
      [DirChild.present "a" (FsTree.file [2]), DirChild.present "b" (FsTree.file [1])]
      (List.Perm.swap _ _ _) (by decide)

/-- C7: within hashDir, a child whose stat fails with ENOENT is
recorded as a FileEntry with the literal hash missing while the whole
directory still succeeds (when every other child succeeds); a child
whose stat fails with any other error makes the whole hashDir call
reject with that error. -/
theorem hashDir_enoent_policy (digB : List Nat → String)
    (digT : String → String) (children : List DirChild) :
    ((childrenNames children).Nodup →
     (∀ c ∈ children, okB (childEntry digB digT c) = true) →
     ∀ n, DirChild.dangling n ∈ children →
       okB (hashDir digB digT (.dir children)) = true ∧
       Entry.file n "missing" ∈ entriesOf (hashDir digB digT (.dir children))) ∧
    ((childrenNames children).Nodup →
     ∀ n e, DirChild.statFail n e ∈ children →
       (∀ c ∈ children, childName c ≠ n → okB (childEntry digB digT c) = true) →
       hashDir digB digT (.dir children) = .error e) := by
  constructor
  · intro hnodup hok n hmem
    have hfind : ∀ m ∈ sortNames (childrenNames children),
        ∃ k ent, findRes (childResults digB digT children) m = some (k, .ok ent) := by
      intro m hm
      rw [mem_sortNames] at hm
      obtain ⟨c, hc, hcm⟩ := List.mem_map.mp hm
      rw [findRes_childResults, unique_child_find? hnodup hc hcm]
      have hcok := hok c hc
      cases hce : childEntry digB digT c with
      | error e => rw [hce] at hcok; simp [okB] at hcok
      | ok ent => exact ⟨childName c, ent, by simp [hce]⟩
    obtain ⟨es, hes⟩ := collect_isOk (sortNames (childrenNames children)) hfind
    have hmain : hashDir digB digT (.dir children) = .ok es := hes
    constructor
    · rw [hmain]; rfl
    · rw [hmain]
      have hf : findRes (childResults digB digT children) n =
          some (n, .ok (.file n "missing")) := by
        rw [findRes_childResults,
          @unique_child_find? children (DirChild.dangling n) n hnodup hmem rfl]
        rfl
      exact collect_mem hf (sortNames (childrenNames children)) es hes
        (mem_sortNames.mpr (List.mem_map.mpr ⟨DirChild.dangling n, hmem, rfl⟩))
  · intro hnodup n e hmem hok
    have hf : findRes (childResults digB digT children) n =
        some (n, .error e) := by
      rw [findRes_childResults,
        @unique_child_find? children (DirChild.statFail n e) n hnodup hmem rfl]
      rfl
    have hoks : ∀ m ∈ sortNames (childrenNames children), m ≠ n →
        ∃ k2 ent2, findRes (childResults digB digT children) m = some (k2, .ok ent2) := by
      intro m hm hne
      rw [mem_sortNames] at hm
      obtain ⟨c, hc, hcm⟩ := List.mem_map.mp hm
      rw [findRes_childResults, unique_child_find? hnodup hc hcm]
      have hcok := hok c hc (by rw [hcm]; exact hne)
      cases hce : childEntry digB digT c with
      | error e2 => rw [hce] at hcok; simp [okB] at hcok
      | ok ent => exact ⟨childName c, ent, by simp [hce]⟩
    exact collect_error hf (sortNames (childrenNames children))
      (mem_sortNames.mpr (List.mem_map.mpr ⟨DirChild.statFail n e, hmem, rfl⟩)) hoks

/-- Witness for the C7 theorem: a directory with one good child and one
dangling child hashes to a list containing the missing sentinel, and a
directory with one good child and one child whose stat fails with
EACCES rejects with EACCES. -/
theorem hashDir_enoent_policy_witness :
    (okB (hashDir (fun _ => "h") (fun _ => "t")
        (.dir [DirChild.present "a" (FsTree.file [1]), DirChild.dangling "b"])) = true ∧
     Entry.file "b" "missing" ∈ entriesOf (hashDir (fun _ => "h") (fun _ => "t")
        (.dir [DirChild.present "a" (FsTree.file [1]), DirChild.dangling "b"]))) ∧
    hashDir (fun _ => "h") (fun _ => "t")
        (.dir [DirChild.present "a" (FsTree.file [1]), DirChild.statFail "c" "EACCES"]) =
      .error "EACCES" := by
  constructor
  · exact (hashDir_enoent_policy (fun _ => "h") (fun _ => "t")
      [DirChild.present "a" (FsTree.file [1]), DirChild.dangling "b"]).1
      (by decide)
      (by intro c hc
          rcases List.mem_cons.mp hc with h1 | h1
          · rw [h1]; rfl
          · rcases List.mem_cons.mp h1 with h2 | h2
            · rw [h2]; rfl
            · cases h2)
      "b" (List.Mem.tail _ (List.Mem.head _))
  · exact (hashDir_enoent_policy (fun _ => "h") (fun _ => "t")
      [DirChild.present "a" (FsTree.file [1]), DirChild.statFail "c" "EACCES"]).2
      (by decide) "c" "EACCES" (List.Mem.tail _ (List.Mem.head _))
      (by intro c hc hne
          rcases List.mem_cons.mp hc with h1 | h1
          · rw [h1]; rfl
          · rcases List.mem_cons.mp h1 with h2 | h2
            · subst h2; exact absurd rfl hne
            · cases h2)

theorem hashUpdateFold_append (acc : List Nat) (chunks : List (List Nat)) :
    chunks.foldl (fun a c => a ++ c) acc = acc ++ chunks.foldl (fun a c => a ++ c) [] := by
  induction chunks generalizing acc with
  | nil => simp
  | cons c cs ih =>
      simp only [List.foldl_cons, List.nil_append]
      rw [ih (acc ++ c), ih c, List.append_assoc]

/-- The chunk boundaries do not matter: two chunkings of the same byte
sequence accumulate to the same bytes, so the single-pass stream digest
agrees with hashOf whenever the algorithm agrees (sha1). -/
theorem copyStreamHash_eq_hashOf_sha1 (dig : String → List Nat → String)
    (c1 c2 : List (List Nat)) (h : hashUpdateFold c1 = hashUpdateFold c2) :
    copyStreamHash dig c1 = hashOf dig "sha1" c2 := by
  unfold copyStreamHash hashOf
  rw [h]

/-- C9 (bug exhibit): the stream path digests with the hard-coded
algorithm sha1 even though hashOf digests with the configured
algorithm; for a digest family that separates the two algorithms (here
the family returning its algorithm name) the stream hash of a byte
sequence differs from hashOf of the same bytes on a store configured
with sha256, while the byte accumulation itself is identical across the
two chunkings. -/
theorem enterStream_hash_algorithm_bug :
    hashUpdateFold [[1], [2, 3]] = hashUpdateFold [[1, 2, 3]] ∧
    copyStreamHash (fun alg _ => alg) [[1], [2, 3]] = "sha1" ∧
    hashOf (fun alg _ => alg) "sha256" [[1, 2, 3]] = "sha256" ∧
    copyStreamHash (fun alg _ => alg) [[1], [2, 3]] ≠
      hashOf (fun alg _ => alg) "sha256" [[1, 2, 3]] := by
  refine ⟨rfl, rfl, rfl, ?_⟩
  intro h
  exact absurd h (by decide)

theorem memoCall_attach {s : MemoState} {h : String}
    {v : Nat × Except StoreErr Unit} (hv : alookup h s.table = some v)
    (out : Except StoreErr Unit) : memoCall s h out = (s, v) := by
  unfold memoCall
  rw [hv]

theorem memoCall_table_stable {s : MemoState} {h h2 : String}
    {v : Nat × Except StoreErr Unit} (hv : alookup h s.table = some v)
    (out : Except StoreErr Unit) :
    alookup h (memoCall s h2 out).1.table = some v := by
  unfold memoCall
  cases hl : alookup h2 s.table with
  | some v2 => exact hv
  | none =>
      simp only [alookup]
      by_cases heq : h2 = h
      · rw [heq] at hl
        rw [hl] at hv
        cases hv
      · rw [if_neg heq]
        exact hv

theorem runCalls_table_stable {h : String} {v : Nat × Except StoreErr Unit} :
    ∀ (calls : List (String × Except StoreErr Unit)) (s : MemoState),
      alookup h s.table = some v →
      alookup h (runCalls s calls).table = some v
  | [], _, hv => hv
  | (h2, out) :: rest, s, hv =>
      runCalls_table_stable rest (memoCall s h2 out).1
        (memoCall_table_stable hv out)

theorem countS_eq_zero_of_not_mem {h : String} :
    ∀ {l : List String}, h ∉ l → countS h l = 0
  | [], _ => rfl
  | x :: rest, hmem => by
      simp only [List.mem_cons, not_or] at hmem
      have hx : ¬ x = h := fun he => hmem.1 he.symm
      simp only [countS, if_neg hx, countS_eq_zero_of_not_mem hmem.2]

theorem memoInv_init : MemoInv initMemo := by
  constructor
  · intro h; simp [countS, initMemo]
  · intro h; simp [initMemo, alookup]

theorem memoInv_step {s : MemoState} (hs : MemoInv s) (h : String)
    (out : Except StoreErr Unit) : MemoInv (memoCall s h out).1 := by
  unfold memoCall
  cases hl : alookup h s.table with
  | some v => exact hs
  | none =>
      constructor
      · intro h2
        simp only [countS]
        by_cases heq : h = h2
        · subst heq
          have hnot : h ∉ s.starts := by
            intro hmem
            have := (hs.2 h).mp hmem
            rw [hl] at this
            cases this
          rw [if_pos rfl, countS_eq_zero_of_not_mem hnot]
        · rw [if_neg heq]
          simpa using hs.1 h2
      · intro h2
        simp only [List.mem_cons, alookup]
        by_cases heq : h = h2
        · subst heq
          simp
        · rw [if_neg heq]
          constructor
          · intro hmem
            cases hmem with
            | inl he => exact absurd he.symm heq
            | inr hm => exact (hs.2 h2).mp hm
          · intro hsome
            exact Or.inr ((hs.2 h2).mpr hsome)

theorem memoInv_run :
    ∀ (calls : List (String × Except StoreErr Unit)) (s : MemoState),
      MemoInv s → MemoInv (runCalls s calls)
  | [], _, hs => hs
  | (h, out) :: rest, s, hs =>
      memoInv_run rest (memoCall s h out).1 (memoInv_step hs h out)

/-- C1: at most one physical ingestion is ever started per hash; a call
that finds an operation memoized for its hash returns that same
operation, touching nothing; a memoized operation for a hash is never
removed or replaced for the lifetime of the store, whatever calls
follow; and the first call that needs a hash ingested inserts the
started operation into the table. -/
theorem single_flight_table
    (calls more : List (String × Except StoreErr Unit)) (h : String)
    (s : MemoState) (v : Nat × Except StoreErr Unit)
    (out : Except StoreErr Unit) :
    countS h (runCalls initMemo calls).starts ≤ 1 ∧
    (alookup h s.table = some v → memoCall s h out = (s, v)) ∧
    (alookup h s.table = some v →
      alookup h (runCalls s more).table = some v) ∧
    (alookup h s.table = none →
      memoCall s h out =
        (⟨(h, s.nextOp, out) :: s.table, s.nextOp + 1, h :: s.starts⟩,
          s.nextOp, out)) := by
  refine ⟨(memoInv_run calls initMemo memoInv_init).1 h, ?_, ?_, ?_⟩
  · intro hv
    exact memoCall_attach hv out
  · intro hv
    exact runCalls_table_stable more s hv
  · intro hnone
    unfold memoCall
    rw [hnone]

/-- Witness for the C1 theorem: a trace with three calls for the hash
aa (and one for bb) starts aa once; the state after the first aa call
memoizes operation 0, which the later call returns unchanged, survives
further calls, and was inserted by the first call from the empty
table. -/
theorem single_flight_table_witness :
    countS "aa" (runCalls initMemo
      [("aa", .ok ()), ("bb", .ok ()), ("aa", .ok ()), ("aa", .ok ())]).starts ≤ 1 ∧
    memoCall (runCalls initMemo [("aa", Except.ok ())]) "aa" (.ok ()) =
      (runCalls initMemo [("aa", Except.ok ())], 0, Except.ok ()) ∧
    alookup "aa" (runCalls (runCalls initMemo [("aa", Except.ok ())])
      [("bb", .ok ()), ("aa", .error (.ioError "EIO"))]).table =
      some (0, Except.ok ()) ∧
    memoCall initMemo "aa" (.ok ()) =
      (⟨[("aa", 0, Except.ok ())], 1, ["aa"]⟩, 0, Except.ok ()) := by
  have main := single_flight_table
    [("aa", .ok ()), ("bb", .ok ()), ("aa", .ok ()), ("aa", .ok ())]
    [("bb", .ok ()), ("aa", .error (.ioError "EIO"))]
    "aa" (runCalls initMemo [("aa", Except.ok ())]) (0, Except.ok ()) (.ok ())
  refine ⟨main.1, main.2.1 rfl, main.2.2.1 rfl, ?_⟩
  have main2 := single_flight_table [] [] "aa" initMemo (0, Except.ok ()) (.ok ())
  exact main2.2.2.2 rfl

/-- C8 counterexample: after an ingestion for hash aa fails with EIO,
a second call for aa — whose own ingestion would have succeeded —
returns the memoized failure and starts no new ingestion: the failure
is permanently bound to the slot, contrary to the claim. -/
theorem failed_ingestion_poisons :
    (memoCall (memoCall initMemo "aa" (.error (.ioError "EIO"))).1
        "aa" (.ok ())).2.2 = .error (.ioError "EIO") ∧
    (memoCall (memoCall initMemo "aa" (.error (.ioError "EIO"))).1
        "aa" (.ok ())).1.starts = ["aa"] :=
  ⟨rfl, rfl⟩

/-- C8 (amended): a failed ingestion for a hash permanently occupies
that hash's slot in the in-flight table: every subsequent call that
needs the hash within the same store instance returns the same failed
operation with the original error and starts no new ingestion, and the
failed entry survives any sequence of further calls. -/
theorem failed_ingestion_sticky (s : MemoState) (h : String) (op : Nat)
    (e : StoreErr) (out : Except StoreErr Unit)
    (more : List (String × Except StoreErr Unit))
    (hv : alookup h s.table = some (op, .error e)) :
    memoCall s h out = (s, op, .error e) ∧
    alookup h (runCalls s more).table = some (op, .error e) :=
  ⟨memoCall_attach hv out, runCalls_table_stable more s hv⟩

/-- Witness for the amended C8 theorem: after a failed ingestion for
aa, a retry call returns the memoized EIO failure and the poisoned
entry survives two further calls. -/
theorem failed_ingestion_sticky_witness :
    memoCall (memoCall initMemo "aa" (.error (.ioError "EIO"))).1 "aa" (.ok ()) =
      ((memoCall initMemo "aa" (.error (.ioError "EIO"))).1, 0,
        .error (.ioError "EIO")) ∧
    alookup "aa" (runCalls (memoCall initMemo "aa" (.error (.ioError "EIO"))).1
      [("bb", .ok ()), ("aa", .ok ())]).table = some (0, .error (.ioError "EIO")) :=
  failed_ingestion_sticky _ "aa" 0 (.ioError "EIO") (.ok ())
    [("bb", .ok ()), ("aa", .ok ())] rfl

theorem alookup_cons_eq {κ β : Type} [DecidableEq κ] (k : κ) (v : β)
    (rest : List (κ × β)) : alookup k ((k, v) :: rest) = some v := by
  simp [alookup]

theorem alookup_cons_ne {κ β : Type} [DecidableEq κ] {k2 k : κ} (v : β)
    (rest : List (κ × β)) (h : ¬ k2 = k) :
    alookup k ((k2, v) :: rest) = alookup k rest := by
  simp [alookup, h]

theorem existsFs_cons_of_exists {fs : List (List String × FsKind)}
    {q : List String} (k : List String) (v : FsKind)
    (h : existsFs fs q = true) : existsFs ((k, v) :: fs) q = true := by
  by_cases hk : k = q
  · subst hk
    simp [existsFs, alookup_cons_eq]
  · rw [existsFs, alookup_cons_ne v fs hk]
    exact h

theorem mkdirSteps_location : ∀ (qs : List (List String)) (s : Store),
    (mkdirSteps s qs).location = s.location
  | [], _ => rfl
  | q :: qs, s => by
      rw [mkdirSteps]
      by_cases h : existsFs s.fs q
      · rw [if_pos h, mkdirSteps_location qs s]
      · rw [if_neg h, mkdirSteps_location qs _]

theorem mkdirSteps_entering : ∀ (qs : List (List String)) (s : Store),
    (mkdirSteps s qs).entering = s.entering
  | [], _ => rfl
  | q :: qs, s => by
      rw [mkdirSteps]
      by_cases h : existsFs s.fs q
      · rw [if_pos h, mkdirSteps_entering qs s]
      · rw [if_neg h, mkdirSteps_entering qs _]

theorem mkdirSteps_exists_preserve :
    ∀ (qs : List (List String)) (s : Store) (q : List String),
      existsFs s.fs q = true → existsFs (mkdirSteps s qs).fs q = true
  | [], _, _, h => h
  | q2 :: qs, s, q, h => by
      rw [mkdirSteps]
      by_cases h2 : existsFs s.fs q2
      · rw [if_pos h2]
        exact mkdirSteps_exists_preserve qs s q h
      · rw [if_neg h2]
        exact mkdirSteps_exists_preserve qs _ q
          (existsFs_cons_of_exists q2 FsKind.dirK h)

theorem mkdirSteps_alookup_not_mem :
    ∀ (qs : List (List String)) (s : Store) (q : List String),
      q ∉ qs → alookup q (mkdirSteps s qs).fs = alookup q s.fs
  | [], _, _, _ => rfl
  | q2 :: qs, s, q, h => by
      simp only [List.mem_cons, not_or] at h
      rw [mkdirSteps]
      by_cases h2 : existsFs s.fs q2
      · rw [if_pos h2]
        exact mkdirSteps_alookup_not_mem qs s q h.2
      · rw [if_neg h2]
        rw [mkdirSteps_alookup_not_mem qs _ q h.2]
        exact alookup_cons_ne FsKind.dirK s.fs (fun he => h.1 he.symm)

theorem ancestorsOf_mem_length {q p : List String}
    (h : q ∈ ancestorsOf p) : q.length ≤ p.length := by
  rw [ancestorsOf] at h
  obtain ⟨i, _, hq⟩ := List.mem_map.mp h
  rw [← hq, List.length_take]
  omega

theorem alookup_filter_ne_self :
    ∀ (fs : List (List String × FsKind)) (p : List String),
      alookup p (fs.filter (fun q => q.1 != p)) = none
  | [], _ => rfl
  | (k, v) :: fs, p => by
      by_cases hk : k = p
      · subst hk
        rw [List.filter_cons]
        simp only [bne_self_eq_false]
        rw [if_neg (by simp)]
        exact alookup_filter_ne_self fs k
      · rw [List.filter_cons]
        rw [if_pos (by simpa using hk)]
        rw [alookup_cons_ne v _ hk]
        exact alookup_filter_ne_self fs p

/-- C5: realize on a hash with no cache entry on disk fails with
NotFound and leaves the filesystem (in particular the destination)
untouched. -/
theorem realize_absent_not_found (s : Store) (location : List String)
    (hash : String)
    (h : existsFs s.fs (cacheNameOfHash s.location hash) = false) :
    realize s location hash = (s, .error (.notFound hash)) ∧
    (realize s location hash).1.fs = s.fs ∧
    (realize s location hash).1.evs = s.evs ∧
    alookup location (realize s location hash).1.fs = alookup location s.fs := by
  have h1 : realize s location hash = (s, .error (.notFound hash)) := by
    unfold realize
    dsimp only
    rw [h, if_pos rfl]
  exact ⟨h1, by rw [h1], by rw [h1], by rw [h1]⟩

/-- Witness for the C5 theorem on an empty filesystem. -/
theorem realize_absent_not_found_witness :
    existsFs (Store.mk ["c"] [] [] []).fs
      (cacheNameOfHash (Store.mk ["c"] [] [] []).location "0123456789") = false ∧
    realize (Store.mk ["c"] [] [] []) ["d"] "0123456789" =
      (Store.mk ["c"] [] [] [], .error (.notFound "0123456789")) ∧
    alookup ["d"] (realize (Store.mk ["c"] [] [] []) ["d"] "0123456789").1.fs =
      alookup ["d"] (Store.mk ["c"] [] [] []).fs := by
  have main := realize_absent_not_found (Store.mk ["c"] [] [] []) ["d"]
    "0123456789" rfl
  exact ⟨rfl, main.1, main.2.2.2⟩

/-- C6: realize on a hash whose cache entry exists creates exactly one
filesystem entry at the destination — a hard link to the cache entry
when it is a regular file, a symbolic link to it when it is a
directory — and touches no other path. -/
theorem realize_links_cache_entry (s : Store) (location : List String)
    (hash : String) (k : FsKind)
    (hk : alookup (cacheNameOfHash s.location hash) s.fs = some k)
    (hkind : k = FsKind.fileK ∨ k = FsKind.dirK)
    (hdest : existsFs s.fs location = false) :
    realize s location hash =
      ({ s with
          fs := (location,
            if k = FsKind.dirK
            then FsKind.symlinkK (cacheNameOfHash s.location hash)
            else FsKind.hardK (cacheNameOfHash s.location hash)) :: s.fs,
          evs := (if k = FsKind.dirK
            then Ev.evSymlink (cacheNameOfHash s.location hash) location
            else Ev.evLink (cacheNameOfHash s.location hash) location) :: s.evs },
        .ok location) ∧
    (∀ p, p ≠ location →
      alookup p (realize s location hash).1.fs = alookup p s.fs) := by
  have hex : existsFs s.fs (cacheNameOfHash s.location hash) = true := by
    rw [existsFs, hk]
    rfl
  have h1 : realize s location hash =
      ({ s with
          fs := (location,
            if k = FsKind.dirK
            then FsKind.symlinkK (cacheNameOfHash s.location hash)
            else FsKind.hardK (cacheNameOfHash s.location hash)) :: s.fs,
          evs := (if k = FsKind.dirK
            then Ev.evSymlink (cacheNameOfHash s.location hash) location
            else Ev.evLink (cacheNameOfHash s.location hash) location) :: s.evs },
        .ok location) := by
    cases hkind with
    | inl hfile =>
        subst hfile
        unfold realize
        dsimp only
        rw [hex]
        rw [if_neg (by simp)]
        have hdir : isDirFs s.fs (cacheNameOfHash s.location hash) = false := by
          rw [isDirFs, hk]
        rw [hdir]
        rw [if_neg (by simp)]
        unfold linkFs
        rw [hex]
        rw [if_neg (by simp), hdest, if_neg (by simp)]
        simp
    | inr hdir =>
        subst hdir
        unfold realize
        dsimp only
        rw [hex]
        rw [if_neg (by simp)]
        have hisdir : isDirFs s.fs (cacheNameOfHash s.location hash) = true := by
          rw [isDirFs, hk]
        rw [hisdir]
        rw [if_pos rfl]
        unfold symlinkFs
        rw [hdest, if_neg (by simp)]
        simp
  refine ⟨h1, ?_⟩
  intro p hp
  rw [h1]
  exact alookup_cons_ne _ s.fs (fun he => hp he.symm)

/-- Witness for the C6 theorem: a store whose cache holds a regular
file for one hash and a directory for another; realize hard-links the
file and symlinks the directory. -/
theorem realize_links_cache_entry_witness :
    realize (Store.mk ["c"] [] [(["c", "01", "23", "456789"], FsKind.fileK)] [])
        ["d"] "0123456789" =
      (Store.mk ["c"] []
        [(["d"], FsKind.hardK ["c", "01", "23", "456789"]),
         (["c", "01", "23", "456789"], FsKind.fileK)]
        [Ev.evLink ["c", "01", "23", "456789"] ["d"]], .ok ["d"]) ∧
    realize (Store.mk ["c"] [] [(["c", "01", "23", "456789"], FsKind.dirK)] [])
        ["d"] "0123456789" =
      (Store.mk ["c"] []
        [(["d"], FsKind.symlinkK ["c", "01", "23", "456789"]),
         (["c", "01", "23", "456789"], FsKind.dirK)]
        [Ev.evSymlink ["c", "01", "23", "456789"] ["d"]], .ok ["d"]) := by
  constructor
  · exact (realize_links_cache_entry
      (Store.mk ["c"] [] [(["c", "01", "23", "456789"], FsKind.fileK)] [])
      ["d"] "0123456789" FsKind.fileK rfl (Or.inl rfl) rfl).1
  · exact (realize_links_cache_entry
      (Store.mk ["c"] [] [(["c", "01", "23", "456789"], FsKind.dirK)] [])
      ["d"] "0123456789" FsKind.dirK rfl (Or.inr rfl) rfl).1

/-- C10: an enterDirectory or enterVirtualDirectory call whose computed
top-level hash is not yet in the in-flight table but whose sharded
cache path already exists on disk completes successfully relying solely
on that top-level cache node: the filesystem and the event log are
unchanged (no writes), no descendant entry is ingested or verified (the
quantified store may lack every child cache entry), and only the
in-flight table gains the completed operation. -/
theorem enter_directory_cache_hit (s : Store) (directory : List String)
    (entries : List Entry) (hash : String)
    (hmiss : alookup hash s.entering = none)
    (hex : existsFs s.fs (cacheNameOfHash s.location hash) = true) :
    enterHashedDirectory s directory entries hash =
      ({ s with entering := (hash, Except.ok ()) :: s.entering }, .ok ()) ∧
    enterHashedVirtualDirectory s hash entries =
      ({ s with entering := (hash, Except.ok ()) :: s.entering }, .ok ()) := by
  constructor
  · unfold enterHashedDirectory
    rw [hmiss]
    dsimp only
    rw [hex, if_pos rfl]
  · unfold enterHashedVirtualDirectory
    rw [hmiss]
    dsimp only
    rw [hex, if_pos rfl]

/-- Witness for the C10 theorem: a store whose cache holds only the
top-level directory node — the referenced child hash deadbeef01 has no
cache entry at all — still completes both calls without touching the
filesystem. -/
theorem enter_directory_cache_hit_witness :
    enterHashedDirectory
        (Store.mk ["c"] [] [(["c", "01", "23", "456789"], FsKind.dirK)] [])
        ["src"] [Entry.file "x" "deadbeef01"] "0123456789" =
      (Store.mk ["c"] [("0123456789", Except.ok ())]
        [(["c", "01", "23", "456789"], FsKind.dirK)] [], .ok ()) ∧
    enterHashedVirtualDirectory
        (Store.mk ["c"] [] [(["c", "01", "23", "456789"], FsKind.dirK)] [])
        "0123456789" [Entry.file "x" "deadbeef01"] =
      (Store.mk ["c"] [("0123456789", Except.ok ())]
        [(["c", "01", "23", "456789"], FsKind.dirK)] [], .ok ()) :=
  enter_directory_cache_hit
    (Store.mk ["c"] [] [(["c", "01", "23", "456789"], FsKind.dirK)] [])
    ["src"] [Entry.file "x" "deadbeef01"] "0123456789" rfl rfl

theorem enterHashedStream_removes (s2 : Store) (t : List String) (hash : String)
    (hex_t : existsFs s2.fs t = true) :
    existsFs (enterHashedStream s2 t hash).1.fs t = false := by
  unfold enterHashedStream
  dsimp only
  by_cases hc : existsFs s2.fs (cacheNameOfHash s2.location hash) = false
  · rw [hc, if_pos rfl]
    have hlen : (cacheNameOfHash s2.location hash).length =
        s2.location.length + 3 := by
      rw [cacheNameOfHash, List.length_append]
      rfl
    have hnotmem : cacheNameOfHash s2.location hash ∉
        ancestorsOf (pdirname (cacheNameOfHash s2.location hash)) := by
      intro hmem
      have h1 := ancestorsOf_mem_length hmem
      rw [pdirname, List.length_dropLast] at h1
      omega
    have h_t : existsFs
        (mkdirpFs s2 (pdirname (cacheNameOfHash s2.location hash))).fs t = true :=
      mkdirSteps_exists_preserve _ s2 t hex_t
    have h_cn : existsFs
        (mkdirpFs s2 (pdirname (cacheNameOfHash s2.location hash))).fs
        (cacheNameOfHash s2.location hash) = false := by
      rw [mkdirpFs, existsFs, mkdirSteps_alookup_not_mem _ s2 _ hnotmem]
      exact hc
    have hne : ¬ cacheNameOfHash s2.location hash = t := by
      intro he
      rw [← he] at hex_t
      rw [hex_t] at hc
      cases hc
    have hlink : linkFs (mkdirpFs s2 (pdirname (cacheNameOfHash s2.location hash)))
        t (cacheNameOfHash s2.location hash) =
        ({ mkdirpFs s2 (pdirname (cacheNameOfHash s2.location hash)) with
            fs := (cacheNameOfHash s2.location hash, FsKind.hardK t) ::
              (mkdirpFs s2 (pdirname (cacheNameOfHash s2.location hash))).fs,
            evs := Ev.evLink t (cacheNameOfHash s2.location hash) ::
              (mkdirpFs s2 (pdirname (cacheNameOfHash s2.location hash))).evs },
          .ok ()) := by
      unfold linkFs
      rw [h_t, if_neg (by simp), h_cn, if_neg (by simp)]
    rw [hlink]
    dsimp only
    have h_t4 : existsFs
        ((cacheNameOfHash s2.location hash, FsKind.hardK t) ::
          (mkdirpFs s2 (pdirname (cacheNameOfHash s2.location hash))).fs) t = true := by
      rw [existsFs, alookup_cons_ne (FsKind.hardK t) _ hne]
      rw [existsFs] at h_t
      exact h_t
    unfold unlinkFs
    rw [h_t4, if_pos rfl]
    dsimp only
    rw [existsFs, alookup_filter_ne_self]
    rfl
  · rw [if_neg hc]
    unfold unlinkFs
    rw [hex_t, if_pos rfl]
    dsimp only
    rw [existsFs, alookup_filter_ne_self]
    rfl

/-- C4 (amended): when no ingestion for the streamed content hash is
already in the in-flight table, enterStream removes its temporary file
before completing — both when the sharded cache entry is absent (the
temp file is linked in and then unlinked) and when it already exists on
disk (the temp file is unlinked without linking).  When an in-flight
ingestion for the hash already exists, the call attaches to it and its
own temporary file is not removed (see the counterexample). -/
theorem enterStream_removes_tmp (s : Store) (cands : List String)
    (dig : String → List Nat → String) (content : List Nat) (t : List String)
    (hmiss : alookup (dig "sha1" content) s.entering = none)
    (ht : (enterStream s cands dig content).tmp = some t) :
    existsFs (enterStream s cands dig content).store.fs t = false := by
  unfold enterStream at ht ⊢
  dsimp only at ht ⊢
  cases htmp : tmpFileName (mkdirpFs s s.location).location
      (mkdirpFs s s.location).fs cands with
  | none =>
      rw [htmp] at ht
      dsimp only at ht
      cases ht
  | some tf =>
      rw [htmp] at ht
      dsimp only at ht ⊢
      have hent : (writeFileFs (mkdirpFs s s.location) tf).entering = s.entering :=
        mkdirSteps_entering (ancestorsOf s.location) s
      rw [hent, hmiss] at ht ⊢
      dsimp only at ht ⊢
      have hex_tf : existsFs (writeFileFs (mkdirpFs s s.location) tf).fs tf = true := by
        show (alookup tf ((tf, FsKind.fileK) :: (mkdirpFs s s.location).fs)).isSome = true
        rw [alookup_cons_eq]
        rfl
      have hrem := enterHashedStream_removes
        (writeFileFs (mkdirpFs s s.location) tf) tf (dig "sha1" content) hex_tf
      revert ht
      cases ho : (enterHashedStream (writeFileFs (mkdirpFs s s.location) tf) tf
          (dig "sha1" content)).2 with
      | ok u =>
          intro ht
          dsimp only at ht ⊢
          cases ht
          exact hrem
      | error e =>
          intro ht
          dsimp only at ht ⊢
          cases ht
          exact hrem

/-- Witness for the amended C4 theorem: on a fresh store the temp file
tmp-1 is gone after the call, and on a store whose cache already holds
the entry on disk the temp file tmp-2 is gone as well. -/
theorem enterStream_removes_tmp_witness :
    existsFs (enterStream (Store.mk ["c"] [] [] []) ["1"]
        (fun _ _ => "0123456789") []).store.fs ["c", "tmp-1"] = false ∧
    existsFs (enterStream
        (Store.mk ["c"] [] [(["c", "01", "23", "456789"], FsKind.fileK)] []) ["2"]
        (fun _ _ => "0123456789") []).store.fs ["c", "tmp-2"] = false := by
  constructor
  · exact enterStream_removes_tmp (Store.mk ["c"] [] [] []) ["1"]
      (fun _ _ => "0123456789") [] ["c", "tmp-1"] rfl rfl
  · exact enterStream_removes_tmp
      (Store.mk ["c"] [] [(["c", "01", "23", "456789"], FsKind.fileK)] []) ["2"]
      (fun _ _ => "0123456789") [] ["c", "tmp-2"] rfl rfl

/-- C4 counterexample: when an ingestion for the hash is already in the
in-flight table, enterStream leaves its temporary file behind.  A first
stream ingestion on a fresh store completes (its temp file tmp-1 is
removed); a second stream of the same content then finds the hash
in-flight, attaches, returns the same hash successfully — and its temp
file tmp-2 is still present in the filesystem when the call completes,
contradicting the claim that the temp file is removed in every case. -/
theorem enterStream_tmp_leak :
    (enterStream (enterStream (Store.mk ["c"] [] [] []) ["1"]
        (fun _ _ => "0123456789") []).store ["2"]
        (fun _ _ => "0123456789") []).result = .ok "0123456789" ∧
    existsFs (enterStream (Store.mk ["c"] [] [] []) ["1"]
        (fun _ _ => "0123456789") []).store.fs ["c", "tmp-1"] = false ∧
    existsFs (enterStream (enterStream (Store.mk ["c"] [] [] []) ["1"]
        (fun _ _ => "0123456789") []).store ["2"]
        (fun _ _ => "0123456789") []).store.fs ["c", "tmp-2"] = true := by
  refine ⟨rfl, rfl, rfl⟩

/-! The recursion in childEntry, ensureEntry and vEntry inlines the
body of the function the source calls there (hashDirChildren,
enterHashedDirectory, realizeHashedVirtualDirectory) so that the
recursion is structural; these lemmas record that the inlined bodies
agree with the wrappers. -/

theorem childEntry_dir_eq (digB : List Nat → String) (digT : String → String)
    (n : String) (cs : List DirChild) :
    childEntry digB digT (.present n (.dir cs)) =
      (match hashDirChildren digB digT cs with
       | .error e => .error e
       | .ok sub => .ok (.directory n (hashEntries digT sub) sub)) := rfl

theorem ensureEntry_directory_eq (s : Store) (directory : List String)
    (n h : String) (fs : List Entry) :
    ensureEntry s directory (.directory n h fs) =
      (match alookup h s.entering with
       | some o => (s, o)
       | none => enterHashedDirectory s (directory ++ [n]) fs h) := rfl

theorem vEntry_dir_eq (s : Store) (fullHashName : List String)
    (n h : String) (fs : List Entry) :
    vEntry s fullHashName (.directory n h fs) =
      (match realizeHashedVirtualDirectory s (fullHashName ++ [n]) h fs with
       | (s1, .ok _) => (s1, .ok ())
       | (s1, .error e) => (s1, .error e)) := by
  unfold vEntry realizeHashedVirtualDirectory enterHashedVirtualDirectory
  dsimp only
  cases alookup h s.entering with
  | some o =>
      cases o with
      | ok u =>
          dsimp only
          cases symlinkFs s (cacheNameOfHash s.location h) (fullHashName ++ [n]) with
          | mk s1 r =>
              cases r with
              | ok u2 => rfl
              | error e2 => rfl
      | error e => rfl
  | none =>
      by_cases hex : existsFs s.fs (cacheNameOfHash s.location h) = true
      · rw [hex]
        dsimp only
        rw [if_pos rfl, if_pos rfl]
        dsimp only
        cases symlinkFs { s with entering := (h, Except.ok ()) :: s.entering }
            (cacheNameOfHash s.location h) (fullHashName ++ [n]) with
        | mk s2 r =>
            cases r with
            | ok u => rfl
            | error e => rfl
      · rw [Bool.not_eq_true] at hex
        rw [hex]
        dsimp only
        rw [if_neg (by simp), if_neg (by simp)]
        cases vChildren (mkdirpFs s (cacheNameOfHash s.location h))
            (cacheNameOfHash s.location h) fs with
        | mk s2 r =>
            cases r with
            | ok u =>
                dsimp only
                cases symlinkFs { s2 with entering := (h, Except.ok ()) :: s2.entering }
                    (cacheNameOfHash s.location h) (fullHashName ++ [n]) with
                | mk s3 r2 =>
                    cases r2 with
                    | ok u2 => rfl
                    | error e2 => rfl
            | error e => rfl

end ContentStoreModel
